import Mathlib

/-!
Shallow embedding of the chaos-driven Mealy-machine cipher from `src/App.jsx`
(classes `LogisticMoore` and `MealyMachine`, the builder `buildMealyMachine`,
and the metric helpers `calculateNPCR` / `calculateEntropy`), together with
proofs of the claims the specification makes about it.

Modelling conventions:
* JS 32-bit signed wrap-around (`| 0`, `<<`) is modelled on `Int` via `wrap32`.
* The logistic-map iteration is carried out over exact rationals `ℚ` in place
  of IEEE-754 doubles; the claims settled against it (seed range, hashing,
  determinism) do not depend on rounding behaviour.
* Mutable fields become explicit state passing; typed arrays become `List Nat`
  with `getD` for reads (out-of-range reads yield the same defaults the typed
  arrays give) and `List.set` for writes.
* `Math.log2` in the entropy metric is modelled by `Real.logb 2`.
-/

/-- Twos-complement 32-bit signed wrap, the effect of applying the JS bitwise-or with 0. -/
def wrap32 (z : Int) : Int :=
  (z + 2147483648) % 4294967296 - 2147483648

/-- One step of the hash loop of the seed routine:
`hash = ((hash << 5) - hash + charCode) | 0`.  The shift `hash << 5` itself
wraps to 32-bit signed, hence the inner `wrap32`. -/
def jsHashStep (h : Int) (c : Nat) : Int :=
  wrap32 (wrap32 (h * 32) - h + (c : Int))

/-- The hash of a key (given as its list of UTF-16 code units). -/
def jsHash (key : List Nat) : Int :=
  key.foldl jsHashStep 0

/-- Modelled from the spec: the reference accumulator `hash*31 + charCode`
wrapped to 32-bit signed at each step. -/
def specHashStep (h : Int) (c : Nat) : Int :=
  wrap32 (h * 31 + (c : Int))

/-- Modelled from the spec: the reference hash folding `specHashStep`. -/
def specHash (key : List Nat) : Int :=
  key.foldl specHashStep 0

/-- The seed computed by the seed routine of the generator:
`0.1 + (Math.abs(hash) % 800000) / 1000000.0`. -/
def initSeed (key : List Nat) : ℚ :=
  1/10 + (((jsHash key).natAbs % 800000 : Nat) : ℚ) / 1000000

/-- One `_transition()` of the logistic map with `r = 3.9999`, including the
degeneracy guard resetting to `0.5`. -/
def transitionLM (x : ℚ) : ℚ :=
  let next := (39999/10000 : ℚ) * x * (1 - x)
  if next ≤ 0 ∨ 1 ≤ next then 1/2 else next

/-- Iterating `_transition()` a given number of times (`_stabilizeState`). -/
def stabilizeQ (x : ℚ) : Nat → ℚ
  | 0 => x
  | k + 1 => stabilizeQ (transitionLM x) k

/-- The generator object: its only mutable field is the logistic-map state. -/
structure LogisticMoore where
  state : ℚ
deriving DecidableEq

/-- The constructor `new LogisticMoore(keyString)` with the default
1000 stabilization steps. -/
def mkLogisticMoore (key : List Nat) : LogisticMoore :=
  ⟨stabilizeQ (initSeed key) 1000⟩

/-- The method `produceOutput()`: transition, magnify by `1e14`, floor, divide
by 256, floor, and reduce to unsigned 32-bit range (`>>> 0`). -/
def produceOutput (g : LogisticMoore) : Nat × LogisticMoore :=
  let st := transitionLM g.state
  let magnified : Int := Int.floor (st * 100000000000000)
  (((Int.floor ((magnified : ℚ) / 256)) % 4294967296).toNat, ⟨st⟩)

/-- The method `generateStream(count)`: `count` successive outputs. -/
def generateStream (g : LogisticMoore) : Nat → List Nat × LogisticMoore
  | 0 => ([], g)
  | k + 1 =>
    let p := produceOutput g
    let rest := generateStream p.2 k
    (p.1 :: rest.1, rest.2)

/-- One row of the transition fill: `count` entries
`delta[s][i] = Math.abs(entropy[cursor]) % nStates`, cursor advancing by one
per entry. -/
def fillRow (e : Nat → Nat) (nStates cursor count : Nat) : List Nat :=
  match count with
  | 0 => []
  | k + 1 => (e cursor % nStates) :: fillRow e nStates (cursor + 1) k

/-- The transition fill: one row per state (states outer, inputs inner),
returning the rows together with the final cursor. -/
def fillDelta (e : Nat → Nat) (nStates mAlphabet cursor statesLeft : Nat) :
    List (List Nat) × Nat :=
  match statesLeft with
  | 0 => ([], cursor)
  | s + 1 =>
    let rest := fillDelta e nStates mAlphabet (cursor + mAlphabet) s
    (fillRow e nStates cursor mAlphabet :: rest.1, rest.2)

/-- The three-assignment swap `temp = perm[i]; perm[i] = perm[j];
perm[j] = temp`. -/
def swapList (l : List Nat) (i j : Nat) : List Nat :=
  let a := l.getD i 0
  let b := l.getD j 0
  (l.set i b).set j a

/-- The Fisher–Yates loop `for (i = m-1; i > 0; i--)`: the fuel argument is
the current loop index `i`; each step draws `j = entropy[cursor] % (i + 1)`,
swaps, and advances the cursor.  Returns the shuffled list and the cursor. -/
def fyAux (e : Nat → Nat) : List Nat → Nat → Nat → List Nat × Nat
  | l, cursor, 0 => (l, cursor)
  | l, cursor, i + 1 =>
    fyAux e (swapList l (i + 1) (e cursor % (i + 2))) (cursor + 1) i

/-- The loop writing `lambdaInv[s][perm[i]] = i` for `i` in `[0, m)`, into the
zero-filled row. -/
def buildInv (perm : List Nat) (m : Nat) : List Nat :=
  (List.range m).foldl (fun acc i => acc.set (perm.getD i 0) i)
    (List.replicate m 0)

/-- The output-permutation fill: per state, shuffle `[0, …, m-1]` by
Fisher–Yates starting from the incoming cursor; returns the permutation rows
and the final cursor. -/
def fillPerms (e : Nat → Nat) (mAlphabet cursor statesLeft : Nat) :
    List (List Nat) × Nat :=
  match statesLeft with
  | 0 => ([], cursor)
  | s + 1 =>
    let p := fyAux e (List.range mAlphabet) cursor (mAlphabet - 1)
    let rest := fillPerms e mAlphabet p.2 s
    (p.1 :: rest.1, rest.2)

/-- The `MealyMachine` object: sizes and the three tables.  The mutable
`currentState` field is passed explicitly through the loops below. -/
structure MealyMachine where
  n : Nat
  m : Nat
  delta : List (List Nat)
  lambdaTable : List (List Nat)
  lambdaInv : List (List Nat)
deriving DecidableEq

/-- `totalNeeded = (nStates * mAlphabet) * 2`, the stream length requested
from the generator by `buildMealyMachine`. -/
def totalNeeded (nStates mAlphabet : Nat) : Nat :=
  nStates * mAlphabet * 2

/-- The builder `buildMealyMachine`, parameterized by the entropy stream: the
transition fill runs first from cursor 0, the permutation fill continues from
the cursor the transition fill ended at, and `lambdaInv` rows are the inverse
writes of the permutation rows. -/
def buildMealyMachine (e : Nat → Nat) (nStates mAlphabet : Nat) :
    MealyMachine :=
  let d := fillDelta e nStates mAlphabet 0 nStates
  let ps := fillPerms e mAlphabet d.2 nStates
  ⟨nStates, mAlphabet, d.1, ps.1, ps.1.map (fun p => buildInv p mAlphabet)⟩

/-- The composition used by the application: feed `generateStream(totalNeeded)`
of a fresh `LogisticMoore(key)` into the builder. -/
def buildFromKey (key : List Nat) (nStates mAlphabet : Nat) : MealyMachine :=
  buildMealyMachine
    (fun i =>
      ((generateStream (mkLogisticMoore key)
          (totalNeeded nStates mAlphabet)).1).getD i 0)
    nStates mAlphabet

/-- Table read `table[s][x]` with the typed-array defaults. -/
def dget (t : List (List Nat)) (s x : Nat) : Nat :=
  (t.getD s []).getD x 0

/-- The warm-up loop at the start of `encryptBytes`/`decryptBytes`:
`currentState = delta[currentState][j % 256]` for `j` in `[0, steps)`,
beginning from `st`. -/
def warmFrom (M : MealyMachine) (st : Nat) : Nat → Nat
  | 0 => st
  | j + 1 => dget M.delta (warmFrom M st j) (j % 256)

/-- One trajectory record `{t, s, i, sPrime, o}`. -/
structure TrajStep where
  t : Nat
  s : Nat
  i : Nat
  sPrime : Nat
  o : Nat
deriving DecidableEq

/-- The default trajectory record used for out-of-range reads. -/
def trajDefault : TrajStep := ⟨0, 0, 0, 0, 0⟩

/-- The transition formula `(delta[s][x] + i) % n`. -/
def stepState (M : MealyMachine) (st x i : Nat) : Nat :=
  (dget M.delta st x + i) % M.n

/-- The main loop of `encryptBytes`: consumes the remaining bytes, carrying
the current state and the 0-based index; the output byte is stored into a
`Uint8Array` (hence `% 256`), and indices below 20 push a trajectory record
holding the raw table values. -/
def encLoop (M : MealyMachine) : List Nat → Nat → Nat →
    List Nat × List TrajStep
  | [], _, _ => ([], [])
  | x :: rest, st, i =>
    let out := dget M.lambdaTable st x
    let next := stepState M st x i
    let r := encLoop M rest next (i + 1)
    (out % 256 :: r.1,
      if i < 20 then ⟨i, st, x, next, out⟩ :: r.2 else r.2)

/-- `encryptBytes`: reset to 0, 500 warm-up steps, then the main loop. -/
def encryptBytes (M : MealyMachine) (bytes : List Nat) :
    List Nat × List TrajStep :=
  encLoop M bytes (warmFrom M 0 500) 0

/-- The main loop of `decryptBytes`: recovers `lambdaInv[s][c]`, steps with
`delta[s][recovered]`, stores the recovered byte into a `Uint8Array`, and
records the ciphertext byte in the `o` field of the trajectory. -/
def decLoop (M : MealyMachine) : List Nat → Nat → Nat →
    List Nat × List TrajStep
  | [], _, _ => ([], [])
  | c :: rest, st, i =>
    let recovered := dget M.lambdaInv st c
    let next := stepState M st recovered i
    let r := decLoop M rest next (i + 1)
    (recovered % 256 :: r.1,
      if i < 20 then ⟨i, st, recovered, next, c⟩ :: r.2 else r.2)

/-- `decryptBytes`: reset to 0, 500 warm-up steps, then the main loop. -/
def decryptBytes (M : MealyMachine) (bytes : List Nat) :
    List Nat × List TrajStep :=
  decLoop M bytes (warmFrom M 0 500) 0

/-- The pre-state of `encryptBytes` before the 0-based input index `t`: the
warm-started state for `t = 0`, then the transition recurrence
`(delta[s][x] + i) % n`. -/
def encState (M : MealyMachine) (bs : List Nat) : Nat → Nat
  | 0 => warmFrom M 0 500
  | k + 1 => stepState M (encState M bs k) (bs.getD k 0) k

/-- The pre-state of `decryptBytes` before index `t`; the symbol fed to
`delta` is the recovered byte `lambdaInv[s][c]`. -/
def decState (M : MealyMachine) (bs : List Nat) : Nat → Nat
  | 0 => warmFrom M 0 500
  | k + 1 =>
    stepState M (decState M bs k)
      (dget M.lambdaInv (decState M bs k) (bs.getD k 0)) k

/-- The differing-position count of `calculateNPCR`, walking the two arrays
index by index. -/
def countDiff : List Nat → List Nat → Nat
  | a :: as, b :: bs => (if a ≠ b then 1 else 0) + countDiff as bs
  | _, _ => 0

/-- Decimal rendering of a value already scaled by 100, with two fractional
digits. -/
def fmt2 (v : Int) : String :=
  let ip := v / 100
  let fp := (v % 100).natAbs
  toString ip ++ "." ++ (if fp < 10 then "0" ++ toString fp else toString fp)

/-- Model of `Number.prototype.toFixed(2)` on an exact rational: round half
up at the second decimal. -/
def toFixed2 (q : ℚ) : String :=
  fmt2 (Int.floor (q * 100 + 1/2))

/-- `calculateNPCR`: mismatched lengths return the `"0.00"` sentinel; the
empty/empty case divides 0 by 0, which JS renders as `"NaN"`; otherwise the
differing fraction times 100, to two decimals. -/
def calculateNPCR (plain cipher : List Nat) : String :=
  if plain.length ≠ cipher.length then "0.00"
  else if plain.length = 0 then "NaN"
  else toFixed2 (((countDiff plain cipher : ℚ) / plain.length) * 100)

/-- Decimal rendering of a value already scaled by 10000, with four
fractional digits. -/
def fmt4 (v : Int) : String :=
  let ip := v / 10000
  let fp := (v % 10000).natAbs
  toString ip ++ "." ++
    (if fp < 10 then "000" ++ toString fp
     else if fp < 100 then "00" ++ toString fp
     else if fp < 1000 then "0" ++ toString fp
     else toString fp)

/-- Model of `toFixed(4)` on a real: round half up at the fourth decimal. -/
noncomputable def toFixed4R (x : ℝ) : String :=
  fmt4 (Int.floor (x * 10000 + 1/2))

/-- The accumulated value of `calculateEntropy`: over the frequency histogram
(the distinct observed values, each with count at least one), subtract
`p * log2 p`. -/
noncomputable def entropyVal (data : List Nat) : ℝ :=
  -((data.dedup.map
      (fun v =>
        let p : ℝ := (data.count v : ℝ) / (data.length : ℝ)
        p * Real.logb 2 p)).sum)

/-- `calculateEntropy`: `"0.0000"` on empty input, otherwise the Shannon
entropy of the histogram to four decimals. -/
noncomputable def calculateEntropy (data : List Nat) : String :=
  if data.length = 0 then "0.0000" else toFixed4R (entropyVal data)

/-- Distinct positions of a row hold distinct values. -/
def rowInj (l : List Nat) : Prop :=
  ∀ p q, p < l.length → q < l.length → l.getD p 0 = l.getD q 0 → p = q

/-- The permutation row produced for one state, starting at a given cursor. -/
def permRow (e : Nat → Nat) (m c : Nat) : List Nat :=
  (fyAux e (List.range m) c (m - 1)).1

/-- The state of the encryption loop after `k` further steps, starting from
state `st` with remaining input `bs` at 0-based index `i`. -/
def statesFrom (M : MealyMachine) : Nat → List Nat → Nat → Nat → Nat
  | st, _, _, 0 => st
  | st, bs, i, k + 1 =>
    statesFrom M (stepState M st (bs.headD 0) i) bs.tail (i + 1) k

theorem getD_set_self (l : List Nat) (i v : Nat) (h : i < l.length) :
    (l.set i v).getD i 0 = v := by
  rw [List.getD_eq_getElem _ _ (by simpa using h)]
  simp

theorem getD_set_ne (l : List Nat) (i j v : Nat) (h : i ≠ j) :
    (l.set i v).getD j 0 = l.getD j 0 := by
  by_cases hj : j < l.length
  · rw [List.getD_eq_getElem _ _ (by simpa using hj),
      List.getD_eq_getElem _ _ hj]
    simp [List.getElem_set_ne h]
  · rw [List.getD_eq_default _ _ (by simp; omega),
      List.getD_eq_default _ _ (by omega)]

theorem getD_map_lt (l : List (List Nat)) (f : List Nat → List Nat)
    (s : Nat) (h : s < l.length) :
    (l.map f).getD s [] = f (l.getD s []) := by
  rw [List.getD_eq_getElem _ _ (by simpa using h),
    List.getD_eq_getElem _ _ h]
  simp

theorem getD_replicate (m v p : Nat) : (List.replicate m v).getD p 0 ≤ v := by
  by_cases hp : p < m
  · rw [List.getD_eq_getElem _ _ (by simpa using hp)]
    simp
  · rw [List.getD_eq_default _ _ (by simp; omega)]
    exact Nat.zero_le v

theorem swap_length (l : List Nat) (i j : Nat) :
    (swapList l i j).length = l.length := by
  simp [swapList]

theorem swap_getD (l : List Nat) (i j p : Nat) (hi : i < l.length)
    (hj : j < l.length) :
    (swapList l i j).getD p 0 =
      if p = j then l.getD i 0 else if p = i then l.getD j 0
      else l.getD p 0 := by
  unfold swapList
  by_cases hpj : p = j
  · subst hpj
    rw [getD_set_self _ _ _ (by simpa using hj)]
    simp
  · rw [getD_set_ne _ _ _ _ (fun h => hpj h.symm)]
    by_cases hpi : p = i
    · subst hpi
      rw [getD_set_self _ _ _ hi]
      simp [hpj]
    · rw [getD_set_ne _ _ _ _ (fun h => hpi h.symm)]
      simp [hpj, hpi]

theorem swap_bound (l : List Nat) (i j B : Nat) (hi : i < l.length)
    (hj : j < l.length) (hb : ∀ p, p < l.length → l.getD p 0 < B) :
    ∀ p, p < (swapList l i j).length → (swapList l i j).getD p 0 < B := by
  intro p hp
  rw [swap_length] at hp
  rw [swap_getD l i j p hi hj]
  split
  · exact hb i hi
  · split
    · exact hb j hj
    · exact hb p hp

theorem swap_getD_idx (l : List Nat) (i j p : Nat) (hi : i < l.length)
    (hj : j < l.length) :
    (swapList l i j).getD p 0 =
      l.getD (if p = j then i else if p = i then j else p) 0 := by
  rw [swap_getD l i j p hi hj]
  split_ifs <;> rfl

theorem swap_inj (l : List Nat) (i j : Nat) (hi : i < l.length)
    (hj : j < l.length) (hinj : rowInj l) : rowInj (swapList l i j) := by
  intro p q hp hq hval
  rw [swap_length] at hp hq
  rw [swap_getD_idx l i j p hi hj, swap_getD_idx l i j q hi hj] at hval
  have hidx := hinj _ _ (by split_ifs <;> omega) (by split_ifs <;> omega) hval
  split_ifs at hidx <;> omega

theorem fyAux_length (e : Nat → Nat) :
    ∀ (k : Nat) (l : List Nat) (c : Nat),
      (fyAux e l c k).1.length = l.length := by
  intro k
  induction k with
  | zero => intro l c; rfl
  | succ k ih =>
    intro l c
    rw [fyAux, ih, swap_length]

theorem fyAux_cursor (e : Nat → Nat) :
    ∀ (k : Nat) (l : List Nat) (c : Nat), (fyAux e l c k).2 = c + k := by
  intro k
  induction k with
  | zero => intro l c; rfl
  | succ k ih =>
    intro l c
    rw [fyAux, ih]
    omega

theorem fyAux_preserves (e : Nat → Nat) (B : Nat) :
    ∀ (k : Nat) (l : List Nat) (c : Nat), k < l.length →
      (∀ p, p < l.length → l.getD p 0 < B) → rowInj l →
      (∀ p, p < (fyAux e l c k).1.length → (fyAux e l c k).1.getD p 0 < B) ∧
        rowInj (fyAux e l c k).1 := by
  intro k
  induction k with
  | zero => intro l c _ hb hi; exact ⟨hb, hi⟩
  | succ k ih =>
    intro l c hk hb hi
    rw [fyAux]
    have hi1 : k + 1 < l.length := hk
    have hj1 : e c % (k + 2) < l.length := by
      have := Nat.mod_lt (e c) (y := k + 2) (by omega)
      omega
    refine ih _ _ ?_ ?_ ?_
    · rw [swap_length]; omega
    · exact swap_bound l _ _ B hi1 hj1 hb
    · exact swap_inj l _ _ hi1 hj1 hi

theorem range_bound (m : Nat) :
    ∀ p, p < (List.range m).length → (List.range m).getD p 0 < m := by
  intro p hp
  rw [List.length_range] at hp
  rw [List.getD_eq_getElem _ _ (by simpa using hp)]
  simpa using hp

theorem range_inj (m : Nat) : rowInj (List.range m) := by
  intro p q hp hq hval
  rw [List.length_range] at hp hq
  rw [List.getD_eq_getElem _ _ (by simpa using hp),
    List.getD_eq_getElem _ _ (by simpa using hq)] at hval
  simpa using hval

theorem permRow_length (e : Nat → Nat) (m c : Nat) :
    (permRow e m c).length = m := by
  rw [permRow, fyAux_length, List.length_range]

theorem permRow_facts (e : Nat → Nat) (m c : Nat) (hm : 0 < m) :
    (∀ p, p < (permRow e m c).length → (permRow e m c).getD p 0 < m) ∧
      rowInj (permRow e m c) := by
  refine fyAux_preserves e m (m - 1) (List.range m) c ?_ (range_bound m)
    (range_inj m)
  rw [List.length_range]
  omega

theorem foldl_set_length (perm : List Nat) :
    ∀ (L : List Nat) (acc : List Nat),
      (L.foldl (fun acc i => acc.set (perm.getD i 0) i) acc).length =
        acc.length := by
  intro L
  induction L with
  | nil => intro acc; rfl
  | cons y L ih =>
    intro acc
    rw [List.foldl_cons, ih, List.length_set]

theorem foldl_set_bound (perm : List Nat) (B : Nat) :
    ∀ (L : List Nat) (acc : List Nat),
      (∀ p, p < acc.length → acc.getD p 0 < B) → (∀ y ∈ L, y < B) →
      ∀ p, p < (L.foldl (fun acc i => acc.set (perm.getD i 0) i) acc).length →
        (L.foldl (fun acc i => acc.set (perm.getD i 0) i) acc).getD p 0 < B
    := by
  intro L
  induction L with
  | nil => intro acc hacc _ p hp; exact hacc p hp
  | cons y L ih =>
    intro acc hacc hmem p hp
    rw [List.foldl_cons] at hp ⊢
    refine ih _ ?_ (fun z hz => hmem z (List.mem_cons_of_mem y hz)) p hp
    intro q hq
    rw [List.length_set] at hq
    by_cases hcase : perm.getD y 0 = q
    · subst hcase
      rw [getD_set_self _ _ _ hq]
      exact hmem y (List.mem_cons_self y L)
    · rw [getD_set_ne _ _ _ _ hcase]
      exact hacc q hq

theorem foldl_set_untouched (perm : List Nat) (t : Nat) :
    ∀ (L : List Nat) (acc : List Nat),
      (∀ y ∈ L, perm.getD y 0 ≠ t) →
      (L.foldl (fun acc i => acc.set (perm.getD i 0) i) acc).getD t 0 =
        acc.getD t 0 := by
  intro L
  induction L with
  | nil => intro acc _; rfl
  | cons y L ih =>
    intro acc hsep
    rw [List.foldl_cons,
      ih _ (fun z hz => hsep z (List.mem_cons_of_mem y hz)),
      getD_set_ne _ _ _ _ (hsep y (List.mem_cons_self y L))]

theorem foldl_set_hit (perm : List Nat) (x : Nat) :
    ∀ (L : List Nat) (acc : List Nat), L.Nodup → x ∈ L →
      (∀ y ∈ L, y ≠ x → perm.getD y 0 ≠ perm.getD x 0) →
      perm.getD x 0 < acc.length →
      (L.foldl (fun acc i => acc.set (perm.getD i 0) i) acc).getD
        (perm.getD x 0) 0 = x := by
  intro L
  induction L with
  | nil => intro acc _ hx; exact absurd hx (List.not_mem_nil x)
  | cons y L ih =>
    intro acc hnd hx hsep hpos
    rw [List.nodup_cons] at hnd
    rw [List.foldl_cons]
    by_cases hyx : y = x
    · subst hyx
      have hnotin : ∀ z ∈ L, perm.getD z 0 ≠ perm.getD y 0 := by
        intro z hz
        exact hsep z (List.mem_cons_of_mem y hz)
          (fun hzy => hnd.1 (hzy ▸ hz))
      rw [foldl_set_untouched perm _ L _ hnotin,
        getD_set_self _ _ _ hpos]
    · have hxL : x ∈ L := by
        rcases List.mem_cons.mp hx with h | h
        · exact absurd h.symm hyx
        · exact h
      refine ih _ hnd.2 hxL
        (fun z hz hzx => hsep z (List.mem_cons_of_mem y hz) hzx) ?_
      rw [List.length_set]
      exact hpos

theorem buildInv_length (perm : List Nat) (m : Nat) :
    (buildInv perm m).length = m := by
  rw [buildInv, foldl_set_length, List.length_replicate]

theorem buildInv_bound (perm : List Nat) (m : Nat) (hm : 0 < m) :
    ∀ p, (buildInv perm m).getD p 0 < m := by
  intro p
  by_cases hp : p < (buildInv perm m).length
  · refine foldl_set_bound perm m (List.range m) _ ?_ ?_ p
      (by rw [buildInv] at hp; exact hp)
    · intro q hq
      have := getD_replicate m 0 q
      omega
    · intro y hy
      exact List.mem_range.mp hy
  · rw [List.getD_eq_default _ _ (by omega)]
    exact hm

theorem buildInv_inverse (perm : List Nat) (m : Nat)
    (hlen : perm.length = m)
    (hb : ∀ p, p < perm.length → perm.getD p 0 < m)
    (hinj : rowInj perm) (x : Nat) (hx : x < m) :
    (buildInv perm m).getD (perm.getD x 0) 0 = x := by
  refine foldl_set_hit perm x (List.range m) _ (List.nodup_range m) ?_ ?_ ?_
  · exact List.mem_range.mpr hx
  · intro y hy hyx hcontra
    have hy2 : y < m := List.mem_range.mp hy
    exact hyx (hinj y x (by omega) (by omega) hcontra)
  · rw [List.length_replicate]
    exact hb x (by omega)

theorem fillRow_length (e : Nat → Nat) (nStates : Nat) :
    ∀ (count cursor : Nat), (fillRow e nStates cursor count).length = count
    := by
  intro count
  induction count with
  | zero => intro cursor; rfl
  | succ k ih =>
    intro cursor
    rw [fillRow, List.length_cons, ih]

theorem fillRow_getD (e : Nat → Nat) (nStates : Nat) :
    ∀ (count cursor i : Nat), i < count →
      (fillRow e nStates cursor count).getD i 0 = e (cursor + i) % nStates
    := by
  intro count
  induction count with
  | zero => intro cursor i hi; omega
  | succ k ih =>
    intro cursor i hi
    rw [fillRow]
    match i with
    | 0 => rfl
    | j + 1 =>
      rw [List.getD_cons_succ, ih cursor.succ j (by omega)]
      congr 2
      omega

theorem fillDelta_cursor (e : Nat → Nat) (nStates mAlphabet : Nat) :
    ∀ (statesLeft cursor : Nat),
      (fillDelta e nStates mAlphabet cursor statesLeft).2 =
        cursor + statesLeft * mAlphabet := by
  intro statesLeft
  induction statesLeft with
  | zero => intro cursor; simp [fillDelta]
  | succ s ih =>
    intro cursor
    rw [fillDelta, ih]
    ring

theorem fillDelta_length (e : Nat → Nat) (nStates mAlphabet : Nat) :
    ∀ (statesLeft cursor : Nat),
      (fillDelta e nStates mAlphabet cursor statesLeft).1.length = statesLeft
    := by
  intro statesLeft
  induction statesLeft with
  | zero => intro cursor; rfl
  | succ s ih =>
    intro cursor
    rw [fillDelta, List.length_cons, ih]

theorem fillDelta_getD (e : Nat → Nat) (nStates mAlphabet : Nat) :
    ∀ (statesLeft cursor s : Nat), s < statesLeft →
      (fillDelta e nStates mAlphabet cursor statesLeft).1.getD s [] =
        fillRow e nStates (cursor + s * mAlphabet) mAlphabet := by
  intro statesLeft
  induction statesLeft with
  | zero => intro cursor s hs; omega
  | succ k ih
    =>
    intro cursor s hs
    rw [fillDelta]
    match s with
    | 0 => simp
    | j + 1 =>
      rw [List.getD_cons_succ, ih (cursor + mAlphabet) j (by omega)]
      congr 1
      ring

theorem fillPerms_cursor (e : Nat → Nat) (mAlphabet : Nat) :
    ∀ (statesLeft cursor : Nat),
      (fillPerms e mAlphabet cursor statesLeft).2 =
        cursor + statesLeft * (mAlphabet - 1) := by
  intro statesLeft
  induction statesLeft with
  | zero => intro cursor; simp [fillPerms]
  | succ s ih =>
    intro cursor
    rw [fillPerms]
    simp only
    rw [ih, fyAux_cursor]
    ring

theorem fillPerms_length (e : Nat → Nat) (mAlphabet : Nat) :
    ∀ (statesLeft cursor : Nat),
      (fillPerms e mAlphabet cursor statesLeft).1.length = statesLeft := by
  intro statesLeft
  induction statesLeft with
  | zero => intro cursor; rfl
  | succ s ih =>
    intro cursor
    rw [fillPerms, List.length_cons, ih]

theorem fillPerms_getD (e : Nat → Nat) (mAlphabet : Nat) :
    ∀ (statesLeft cursor s : Nat), s < statesLeft →
      (fillPerms e mAlphabet cursor statesLeft).1.getD s [] =
        permRow e mAlphabet (cursor + s * (mAlphabet - 1)) := by
  intro statesLeft
  induction statesLeft with
  | zero => intro cursor s hs; omega
  | succ k ih =>
    intro cursor s hs
    rw [fillPerms]
    match s with
    | 0 => simp [permRow]
    | j + 1 =>
      simp only [List.getD_cons_succ]
      rw [fyAux_cursor, ih (cursor + (mAlphabet - 1)) j (by omega)]
      congr 1
      ring

theorem build_n (e : Nat → Nat) (nStates mAlphabet : Nat) :
    (buildMealyMachine e nStates mAlphabet).n = nStates := rfl

theorem build_m (e : Nat → Nat) (nStates mAlphabet : Nat) :
    (buildMealyMachine e nStates mAlphabet).m = mAlphabet := rfl

theorem build_delta_getD (e : Nat → Nat) (nStates mAlphabet s x : Nat)
    (hs : s < nStates) (hx : x < mAlphabet) :
    dget (buildMealyMachine e nStates mAlphabet).delta s x =
      e (s * mAlphabet + x) % nStates := by
  show ((fillDelta e nStates mAlphabet 0 nStates).1.getD s []).getD x 0 = _
  rw [fillDelta_getD e nStates mAlphabet nStates 0 s hs,
    fillRow_getD e nStates mAlphabet (0 + s * mAlphabet) x hx,
    Nat.zero_add]

theorem build_delta_bound (e : Nat → Nat) (nStates mAlphabet : Nat)
    (hn : 0 < nStates) :
    ∀ s x, dget (buildMealyMachine e nStates mAlphabet).delta s x < nStates
    := by
  intro s x
  show ((fillDelta e nStates mAlphabet 0 nStates).1.getD s []).getD x 0 < _
  by_cases hs : s < nStates
  · rw [fillDelta_getD e nStates mAlphabet nStates 0 s hs]
    by_cases hx : x < mAlphabet
    · rw [fillRow_getD e nStates mAlphabet (0 + s * mAlphabet) x hx]
      exact Nat.mod_lt _ hn
    · rw [List.getD_eq_default _ _
        (by rw [fillRow_length]; omega)]
      exact hn
  · rw [List.getD_eq_default
      (fillDelta e nStates mAlphabet 0 nStates).1 _
      (by rw [fillDelta_length]; omega)]
    simpa using hn

theorem build_lambda_row (e : Nat → Nat) (nStates mAlphabet s : Nat)
    (hs : s < nStates) :
    (buildMealyMachine e nStates mAlphabet).lambdaTable.getD s [] =
      permRow e mAlphabet
        (nStates * mAlphabet + s * (mAlphabet - 1)) := by
  show (fillPerms e mAlphabet
      (fillDelta e nStates mAlphabet 0 nStates).2 nStates).1.getD s [] = _
  rw [fillDelta_cursor, fillPerms_getD e mAlphabet nStates _ s hs]
  congr 1
  omega

theorem build_inv_row (e : Nat → Nat) (nStates mAlphabet s : Nat)
    (hs : s < nStates) :
    (buildMealyMachine e nStates mAlphabet).lambdaInv.getD s [] =
      buildInv
        (permRow e mAlphabet (nStates * mAlphabet + s * (mAlphabet - 1)))
        mAlphabet := by
  show ((fillPerms e mAlphabet
      (fillDelta e nStates mAlphabet 0 nStates).2 nStates).1.map
        (fun p => buildInv p mAlphabet)).getD s [] = _
  rw [getD_map_lt _ _ s (by rw [fillPerms_length]; exact hs),
    fillDelta_cursor, fillPerms_getD e mAlphabet nStates _ s hs]
  congr 2
  omega

theorem build_lambda_bound (e : Nat → Nat) (nStates mAlphabet : Nat)
    (hm : 0 < mAlphabet) :
    ∀ s x,
      dget (buildMealyMachine e nStates mAlphabet).lambdaTable s x <
        mAlphabet := by
  intro s x
  unfold dget
  by_cases hs : s < nStates
  · rw [build_lambda_row e nStates mAlphabet s hs]
    by_cases hx : x < mAlphabet
    · exact (permRow_facts e mAlphabet _ hm).1 x
        (by rw [permRow_length]; exact hx)
    · rw [List.getD_eq_default _ _ (by rw [permRow_length]; omega)]
      exact hm
  · rw [List.getD_eq_default (buildMealyMachine e nStates mAlphabet).lambdaTable _
      (by
        show (fillPerms e mAlphabet
          (fillDelta e nStates mAlphabet 0 nStates).2 nStates).1.length ≤ s
        rw [fillPerms_length]
        omega)]
    simpa using hm

theorem build_inv_bound (e : Nat → Nat) (nStates mAlphabet : Nat)
    (hm : 0 < mAlphabet) :
    ∀ s x,
      dget (buildMealyMachine e nStates mAlphabet).lambdaInv s x <
        mAlphabet := by
  intro s x
  unfold dget
  by_cases hs : s < nStates
  · rw [build_inv_row e nStates mAlphabet s hs]
    exact buildInv_bound _ mAlphabet hm x
  · rw [List.getD_eq_default (buildMealyMachine e nStates mAlphabet).lambdaInv _
      (by
        show ((fillPerms e mAlphabet
          (fillDelta e nStates mAlphabet 0 nStates).2 nStates).1.map
            (fun p => buildInv p mAlphabet)).length ≤ s
        rw [List.length_map, fillPerms_length]
        omega)]
    simpa using hm

theorem build_inverse (e : Nat → Nat) (nStates mAlphabet s x : Nat)
    (hm : 0 < mAlphabet) (hs : s < nStates) (hx : x < mAlphabet) :
    dget (buildMealyMachine e nStates mAlphabet).lambdaInv s
      (dget (buildMealyMachine e nStates mAlphabet).lambdaTable s x) = x
    := by
  unfold dget
  rw [build_lambda_row e nStates mAlphabet s hs,
    build_inv_row e nStates mAlphabet s hs]
  exact buildInv_inverse _ mAlphabet (permRow_length e mAlphabet _)
    (permRow_facts e mAlphabet _ hm).1 (permRow_facts e mAlphabet _ hm).2 x hx

theorem getD_zero_headD (bs : List Nat) : bs.getD 0 0 = bs.headD 0 := by
  cases bs <;> rfl

theorem tail_getD (bs : List Nat) (k : Nat) :
    bs.tail.getD k 0 = bs.getD (k + 1) 0 := by
  cases bs <;> rfl

theorem statesFrom_succ (M : MealyMachine) :
    ∀ (k : Nat) (st : Nat) (bs : List Nat) (i : Nat),
      statesFrom M st bs i (k + 1) =
        stepState M (statesFrom M st bs i k) (bs.getD k 0) (i + k) := by
  intro k
  induction k with
  | zero =>
    intro st bs i
    simp only [statesFrom, Nat.add_zero, getD_zero_headD]
  | succ k ih =>
    intro st bs i
    show statesFrom M (stepState M st (bs.headD 0) i) bs.tail (i + 1)
      (k + 1) = _
    rw [ih, tail_getD]
    have h1 : i + 1 + k = i + (k + 1) := by omega
    rw [h1]
    rfl

theorem encState_eq_statesFrom (M : MealyMachine) (bs : List Nat) :
    ∀ t, encState M bs t = statesFrom M (warmFrom M 0 500) bs 0 t := by
  intro t
  induction t with
  | zero => rfl
  | succ k ih =>
    rw [encState, statesFrom_succ, ih, Nat.zero_add]

theorem warmFrom_bound (M : MealyMachine) (hn : 0 < M.n)
    (hd : ∀ s x, dget M.delta s x < M.n) :
    ∀ (k st : Nat), st < M.n → warmFrom M st k < M.n := by
  intro k
  induction k with
  | zero => intro st h; exact h
  | succ k _ => intro st _; exact hd _ _

theorem stepState_bound (M : MealyMachine) (hn : 0 < M.n)
    (st x i : Nat) : stepState M st x i < M.n :=
  Nat.mod_lt _ hn

theorem statesFrom_bound (M : MealyMachine) (hn : 0 < M.n) :
    ∀ (k st : Nat) (bs : List Nat) (i : Nat), st < M.n →
      statesFrom M st bs i k < M.n := by
  intro k
  induction k with
  | zero => intro st bs i h; exact h
  | succ k ih =>
    intro st bs i _
    rw [statesFrom]
    exact ih _ _ _ (stepState_bound M hn st (bs.headD 0) i)

theorem encLoop_cipher_length (M : MealyMachine) :
    ∀ (bs : List Nat) (st i : Nat),
      (encLoop M bs st i).1.length = bs.length := by
  intro bs
  induction bs with
  | nil => intro st i; rfl
  | cons b rest ih =>
    intro st i
    rw [encLoop]
    simp only [List.length_cons, ih]

theorem encLoop_traj_length (M : MealyMachine) :
    ∀ (bs : List Nat) (st i : Nat),
      (encLoop M bs st i).2.length = min bs.length (20 - i) := by
  intro bs
  induction bs with
  | nil => intro st i; simp [encLoop]
  | cons b rest ih =>
    intro st i
    rw [encLoop]
    by_cases hi : i < 20
    · simp only [if_pos hi, List.length_cons, ih]
      omega
    · simp only [if_neg hi, ih]
      omega

theorem encLoop_cipher_getD (M : MealyMachine) :
    ∀ (bs : List Nat) (st i t : Nat), t < bs.length →
      (encLoop M bs st i).1.getD t 0 =
        dget M.lambdaTable (statesFrom M st bs i t) (bs.getD t 0) % 256
    := by
  intro bs
  induction bs with
  | nil => intro st i t ht; simp at ht
  | cons b rest ih =>
    intro st i t ht
    rw [encLoop]
    match t with
    | 0 => rfl
    | j + 1 =>
      simp only [List.getD_cons_succ]
      rw [ih _ _ j (by simpa using Nat.lt_of_succ_lt_succ ht)]
      rfl

theorem encLoop_traj_getD (M : MealyMachine) :
    ∀ (bs : List Nat) (st i t : Nat), t < bs.length → i + t < 20 →
      (encLoop M bs st i).2.getD t trajDefault =
        ⟨i + t, statesFrom M st bs i t, bs.getD t 0,
          stepState M (statesFrom M st bs i t) (bs.getD t 0) (i + t),
          dget M.lambdaTable (statesFrom M st bs i t) (bs.getD t 0)⟩ := by
  intro bs
  induction bs with
  | nil => intro st i t ht; simp at ht
  | cons b rest ih =>
    intro st i t ht h20
    rw [encLoop]
    simp only [if_pos (show i < 20 by omega)]
    match t with
    | 0 => rfl
    | j + 1 =>
      simp only [List.getD_cons_succ]
      rw [ih _ _ j (by simpa using Nat.lt_of_succ_lt_succ ht) (by omega)]
      have harith : i + 1 + j = i + (j + 1) := by omega
      simp only [harith]
      rfl

theorem encLoop_traj_mem (M : MealyMachine) (hn : 0 < M.n)
    (hd : ∀ s x, dget M.delta s x < M.n) :
    ∀ (bs : List Nat) (st i : Nat), st < M.n →
      ∀ tr ∈ (encLoop M bs st i).2, tr.s < M.n ∧ tr.sPrime < M.n := by
  intro bs
  induction bs with
  | nil => intro st i _ tr htr; simp [encLoop] at htr
  | cons b rest ih =>
    intro st i hst tr htr
    rw [encLoop] at htr
    by_cases hi : i < 20
    · simp only [if_pos hi, List.mem_cons] at htr
      rcases htr with h | h
      · subst h
        exact ⟨hst, stepState_bound M hn st b i⟩
      · exact ih _ _ (stepState_bound M hn st b i) tr h
    · simp only [if_neg hi] at htr
      exact ih _ _ (stepState_bound M hn st b i) tr htr

theorem decLoop_traj_mem (M : MealyMachine) (hn : 0 < M.n)
    (hd : ∀ s x, dget M.delta s x < M.n) :
    ∀ (bs : List Nat) (st i : Nat), st < M.n →
      ∀ tr ∈ (decLoop M bs st i).2, tr.s < M.n ∧ tr.sPrime < M.n := by
  intro bs
  induction bs with
  | nil => intro st i _ tr htr; simp [decLoop] at htr
  | cons b rest ih =>
    intro st i hst tr htr
    rw [decLoop] at htr
    by_cases hi : i < 20
    · simp only [if_pos hi, List.mem_cons] at htr
      rcases htr with h | h
      · subst h
        exact ⟨hst, stepState_bound M hn st _ i⟩
      · exact ih _ _ (stepState_bound M hn st _ i) tr h
    · simp only [if_neg hi] at htr
      exact ih _ _ (stepState_bound M hn st _ i) tr htr

theorem encDecLoop (M : MealyMachine) (hn : 0 < M.n)
    (hinv : ∀ st x, st < M.n → x < 256 →
      dget M.lambdaInv st (dget M.lambdaTable st x) = x)
    (hLb : ∀ st x, dget M.lambdaTable st x < 256) :
    ∀ (bs : List Nat) (st i : Nat), st < M.n → (∀ b ∈ bs, b < 256) →
      (decLoop M (encLoop M bs st i).1 st i).1 = bs := by
  intro bs
  induction bs with
  | nil => intro st i _ _; rfl
  | cons b rest ih =>
    intro st i hst hb
    have hblt : b < 256 := hb b (List.mem_cons_self b rest)
    rw [encLoop]
    show (decLoop M
        (dget M.lambdaTable st b % 256 :: (encLoop M rest _ (i + 1)).1)
        st i).1 = b :: rest
    rw [decLoop]
    have hout : dget M.lambdaTable st b % 256 = dget M.lambdaTable st b :=
      Nat.mod_eq_of_lt (hLb st b)
    simp only [hout, hinv st b hst hblt]
    rw [ih _ _ (stepState_bound M hn st b i)
      (fun z hz => hb z (List.mem_cons_of_mem b hz))]
    rw [Nat.mod_eq_of_lt hblt]

theorem hashStep_eq (h : Int) (c : Nat) : jsHashStep h c = specHashStep h c
    := by
  unfold jsHashStep specHashStep wrap32
  omega

theorem foldl_hash_eq :
    ∀ (key : List Nat) (h : Int),
      key.foldl jsHashStep h = key.foldl specHashStep h := by
  intro key
  induction key with
  | nil => intro h; rfl
  | cons c cs ih =>
    intro h
    rw [List.foldl_cons, List.foldl_cons, hashStep_eq, ih]

/-- C7: for every key string, the hash computed by the source loop
shifting by 5 and subtracting equals the reference accumulator
multiplying by 31, wrapped to 32-bit twos-complement at each step. -/
theorem C7_hash_refinement (key : List Nat) : jsHash key = specHash key :=
  foldl_hash_eq key 0

/-- C6 counterexample: at the empty key the hash is 0 and the computed seed
is exactly 1/10, so it does not lie strictly inside (0.1, 0.9). -/
theorem C6_counterexample :
    ¬(1/10 < initSeed [] ∧ initSeed [] < 9/10) := by
  have h : initSeed [] = 1/10 := by
    unfold initSeed jsHash
    norm_num
  rw [h]
  intro hc
  exact absurd hc.1 (lt_irrefl _)

/-- C6 (amended): for every key string the seed
`0.1 + (|hash| mod 800000) / 1000000` lies in the half-open interval
[0.1, 0.9): it is at least 0.1 (with equality attained, e.g. at the empty
key) and strictly below 0.9. -/
theorem C6_seed_range (key : List Nat) :
    1/10 ≤ initSeed key ∧ initSeed key < 9/10 := by
  unfold initSeed
  constructor
  · have h0 : (0:ℚ) ≤ (((jsHash key).natAbs % 800000 : Nat) : ℚ) / 1000000
      := by positivity
    linarith
  · have h1 : (jsHash key).natAbs % 800000 ≤ 799999 := by
      have := Nat.mod_lt (jsHash key).natAbs
        (y := 800000) (by norm_num)
      omega
    have h2 : (((jsHash key).natAbs % 800000 : Nat) : ℚ) ≤ 799999 := by
      exact_mod_cast h1
    have h3 : (((jsHash key).natAbs % 800000 : Nat) : ℚ) / 1000000 ≤
        799999 / 1000000 := by linarith
    linarith

/-- C5: the generator and the table build are deterministic functions of the
key: whenever two keys derive the same seed (in particular, whenever the
same key is used twice for two fresh instances), the two generators produce
identical `generateStream` sequences and the two builds produce identical
`delta`, `lambdaTable` and `lambdaInv` tables. -/
theorem C5_determinism (k1 k2 : List Nat) (N nStates mAlphabet : Nat)
    (h : initSeed k1 = initSeed k2) :
    (generateStream (mkLogisticMoore k1) N).1 =
        (generateStream (mkLogisticMoore k2) N).1 ∧
      (buildFromKey k1 nStates mAlphabet).delta =
        (buildFromKey k2 nStates mAlphabet).delta ∧
      (buildFromKey k1 nStates mAlphabet).lambdaTable =
        (buildFromKey k2 nStates mAlphabet).lambdaTable ∧
      (buildFromKey k1 nStates mAlphabet).lambdaInv =
        (buildFromKey k2 nStates mAlphabet).lambdaInv := by
  have hg : mkLogisticMoore k1 = mkLogisticMoore k2 := by
    unfold mkLogisticMoore
    rw [h]
  refine ⟨by rw [hg], ?_, ?_, ?_⟩ <;>
    · unfold buildFromKey
      simp only [hg]

/-- C5 witness: instantiated at the key `"test"` (code units
[116, 101, 115, 116]) used twice, N = 5, and the table sizes used by the application. -/
theorem C5_witness :
    (generateStream (mkLogisticMoore [116,101,115,116]) 5).1 =
        (generateStream (mkLogisticMoore [116,101,115,116]) 5).1 ∧
      (buildFromKey [116,101,115,116] 1024 256).delta =
        (buildFromKey [116,101,115,116] 1024 256).delta ∧
      (buildFromKey [116,101,115,116] 1024 256).lambdaTable =
        (buildFromKey [116,101,115,116] 1024 256).lambdaTable ∧
      (buildFromKey [116,101,115,116] 1024 256).lambdaInv =
        (buildFromKey [116,101,115,116] 1024 256).lambdaInv :=
  C5_determinism [116,101,115,116] [116,101,115,116] 5 1024 256 rfl

theorem build_lambda_surj (e : Nat → Nat) (nStates mAlphabet s : Nat)
    (hm : 0 < mAlphabet) (hs : s < nStates) :
    ∀ y, y < mAlphabet → ∃ x, x < mAlphabet ∧
      dget (buildMealyMachine e nStates mAlphabet).lambdaTable s x = y := by
  have hfinj : Function.Injective
      (fun x : Fin mAlphabet =>
        (⟨dget (buildMealyMachine e nStates mAlphabet).lambdaTable s x.val,
          build_lambda_bound e nStates mAlphabet hm s x.val⟩ :
            Fin mAlphabet)) := by
    intro x y hxy
    have h1 := congrArg Fin.val hxy
    simp only at h1
    have hx := build_inverse e nStates mAlphabet s x.val hm hs x.isLt
    have hy := build_inverse e nStates mAlphabet s y.val hm hs y.isLt
    rw [h1] at hx
    rw [hy] at hx
    exact Fin.ext hx.symm
  have hfsurj := Finite.injective_iff_surjective.mp hfinj
  intro y hy
  obtain ⟨x, hx⟩ := hfsurj ⟨y, hy⟩
  exact ⟨x.val, x.isLt, congrArg Fin.val hx⟩

/-- C2: for every machine returned by `buildMealyMachine` and every state
`s < n`, the output row `lambdaTable[s]` is a bijection of [0, m), and
`lambdaInv[s]` is its exact inverse: `lambdaInv[s][lambdaTable[s][x]] = x`
for every `x < m`.  The tables are immutable values, so this holds at all
times after construction. -/
theorem C2_perm_invariant (e : Nat → Nat) (nStates mAlphabet s : Nat)
    (hm : 0 < mAlphabet) (hs : s < nStates) :
    Set.BijOn
      (fun x => dget (buildMealyMachine e nStates mAlphabet).lambdaTable s x)
      (Set.Iio mAlphabet) (Set.Iio mAlphabet) ∧
    ∀ x, x < mAlphabet →
      dget (buildMealyMachine e nStates mAlphabet).lambdaInv s
        (dget (buildMealyMachine e nStates mAlphabet).lambdaTable s x) = x
    := by
  refine ⟨⟨?_, ?_, ?_⟩, ?_⟩
  · intro x hx
    exact build_lambda_bound e nStates mAlphabet hm s x
  · intro x hx y hy hval
    have hx2 := build_inverse e nStates mAlphabet s x hm hs hx
    have hy2 := build_inverse e nStates mAlphabet s y hm hs hy
    simp only at hval
    rw [hval] at hx2
    rw [hy2] at hx2
    exact hx2.symm
  · intro y hy
    obtain ⟨x, hx, hval⟩ :=
      build_lambda_surj e nStates mAlphabet s hm hs y hy
    exact ⟨x, hx, hval⟩
  · intro x hx
    exact build_inverse e nStates mAlphabet s x hm hs hx

/-- C2 witness: the invariant instantiated on a concrete machine with one
state and a one-symbol alphabet built from the all-zero stream. -/
theorem C2_witness :
    Set.BijOn
      (fun x => dget (buildMealyMachine (fun _ => 0) 1 1).lambdaTable 0 x)
      (Set.Iio 1) (Set.Iio 1) ∧
    ∀ x, x < 1 →
      dget (buildMealyMachine (fun _ => 0) 1 1).lambdaInv 0
        (dget (buildMealyMachine (fun _ => 0) 1 1).lambdaTable 0 x) = x :=
  C2_perm_invariant (fun _ => 0) 1 1 0 (by decide) (by decide)

/-- C3 counterexample: with n = 1024 states and m = 256 symbols the
output-permutation fill ends with the cursor at n*m + n*(m-1) = 523264, not
at the requested 2*n*m = 524288 — the last n = 1024 entropy values are never
consumed. -/
theorem C3_counterexample :
    (fillPerms (fun _ => 0) 256
        (fillDelta (fun _ => 0) 1024 256 0 1024).2 1024).2 ≠
      totalNeeded 1024 256 := by
  rw [fillPerms_cursor, fillDelta_cursor]
  norm_num [totalNeeded]

/-- C3 (amended): with n = 1024 and m = 256 the builder requests exactly
2*n*m entropy integers from the generator and consumes them in one
continuous cursor pass: the transition fill consumes the first n*m values,
one per `delta[s][i]` assignment with states outer and inputs inner, and the
output-permutation fill then consumes the next n*(m-1) values (m-1 draws per
state), ending at cursor 2*n*m - n and leaving the last n values unused. -/
theorem C3_entropy_consumption (e : Nat → Nat) :
    totalNeeded 1024 256 = 2 * 1024 * 256 ∧
    (fillDelta e 1024 256 0 1024).2 = 1024 * 256 ∧
    (∀ s x, s < 1024 → x < 256 →
      dget (buildMealyMachine e 1024 256).delta s x =
        e (s * 256 + x) % 1024) ∧
    (fillPerms e 256 (fillDelta e 1024 256 0 1024).2 1024).2 =
      1024 * 256 + 1024 * 255 ∧
    (fillPerms e 256 (fillDelta e 1024 256 0 1024).2 1024).2 =
      2 * 1024 * 256 - 1024 := by
  refine ⟨by norm_num [totalNeeded], ?_, ?_, ?_, ?_⟩
  · rw [fillDelta_cursor]
  · intro s x hs hx
    exact build_delta_getD e 1024 256 s x hs hx
  · rw [fillPerms_cursor, fillDelta_cursor]
  · rw [fillPerms_cursor, fillDelta_cursor]

/-- C3 witness: the consumption-order clause applied at state 3, input 5 of
a machine built from the all-zero stream. -/
theorem C3_witness :
    dget (buildMealyMachine (fun _ => 0) 1024 256).delta 3 5 = 0 := by
  have h := (C3_entropy_consumption (fun _ => 0)).2.2.1 3 5 (by decide)
    (by decide)
  simpa using h

/-- C1: for every entropy stream (hence for every key, whose machine is
built from its generator stream), every positive state count, and every byte
sequence with entries in [0, 256), decrypting the ciphertext produced by
`encryptBytes` returns exactly the plaintext; in particular this holds for
the machine the application builds from the key `"test"` (code units
[116, 101, 115, 116]) on the plaintext bytes [72, 105]. -/
theorem C1_round_trip :
    (∀ (e : Nat → Nat) (nStates : Nat) (P : List Nat), 0 < nStates →
      (∀ b ∈ P, b < 256) →
      (decryptBytes (buildMealyMachine e nStates 256)
        (encryptBytes (buildMealyMachine e nStates 256) P).1).1 = P) ∧
    (decryptBytes (buildFromKey [116,101,115,116] 1024 256)
      (encryptBytes (buildFromKey [116,101,115,116] 1024 256)
        [72,105]).1).1 = [72,105] := by
  have main : ∀ (e : Nat → Nat) (nStates : Nat) (P : List Nat),
      0 < nStates → (∀ b ∈ P, b < 256) →
      (decryptBytes (buildMealyMachine e nStates 256)
        (encryptBytes (buildMealyMachine e nStates 256) P).1).1 = P := by
    intro e nStates P hn hP
    have hd := build_delta_bound e nStates 256 hn
    have hwarm : warmFrom (buildMealyMachine e nStates 256) 0 500 <
        (buildMealyMachine e nStates 256).n :=
      warmFrom_bound _ hn hd 500 0 hn
    exact encDecLoop (buildMealyMachine e nStates 256) hn
      (fun st x hst hx => build_inverse e nStates 256 st x (by norm_num)
        hst hx)
      (fun st x => build_lambda_bound e nStates 256 (by norm_num) st x)
      P _ 0 hwarm hP
  exact ⟨main, main _ 1024 [72, 105] (by norm_num) (by decide)⟩

/-- C1 witness: the general clause applied to the all-zero stream with the
1024 states used by the application and the plaintext [72, 105]. -/
theorem C1_witness :
    (decryptBytes (buildMealyMachine (fun _ => 0) 1024 256)
      (encryptBytes (buildMealyMachine (fun _ => 0) 1024 256)
        [72,105]).1).1 = [72,105] :=
  C1_round_trip.1 (fun _ => 0) 1024 [72, 105] (by norm_num) (by decide)

/-- C4: for any machine whose output table holds byte values (as every
built machine does) and any input, `encryptBytes` returns a ciphertext of
the length of the input and a trajectory of exactly `min (length, 20)` records;
the ciphertext byte at index `t` is `lambdaTable[s_t][x_t]` and the record
at index `t` is `(t, s_t, x_t, (delta[s_t][x_t] + t) % n, out_t)`, where
`s_0` is the state reached from 0 by the 500 data-independent warm-up
transitions `delta[s][j % 256]` and `s_(t+1) = (delta[s_t][x_t] + t) % n`
(the recurrence defining `encState`). -/
theorem C4_encrypt_algorithm (M : MealyMachine) (bs : List Nat)
    (hL : ∀ st x, dget M.lambdaTable st x < 256) :
    (encryptBytes M bs).1.length = bs.length ∧
    (encryptBytes M bs).2.length = min bs.length 20 ∧
    (∀ t, t < bs.length →
      (encryptBytes M bs).1.getD t 0 =
        dget M.lambdaTable (encState M bs t) (bs.getD t 0)) ∧
    (∀ t, t < min bs.length 20 →
      (encryptBytes M bs).2.getD t trajDefault =
        ⟨t, encState M bs t, bs.getD t 0,
          stepState M (encState M bs t) (bs.getD t 0) t,
          dget M.lambdaTable (encState M bs t) (bs.getD t 0)⟩) := by
  refine ⟨encLoop_cipher_length M bs _ 0, ?_, ?_, ?_⟩
  · rw [encryptBytes, encLoop_traj_length]
  · intro t ht
    rw [encryptBytes, encLoop_cipher_getD M bs _ 0 t ht,
      ← encState_eq_statesFrom,
      Nat.mod_eq_of_lt (hL (encState M bs t) (bs.getD t 0))]
  · intro t ht
    rw [encryptBytes, encLoop_traj_getD M bs _ 0 t (by omega) (by omega),
      ← encState_eq_statesFrom]
    simp only [Nat.zero_add]

/-- C4 witness: instantiated on the machine built from the all-zero stream
with one state and the full byte alphabet, on the single-byte input [7]. -/
theorem C4_witness :
    (encryptBytes (buildMealyMachine (fun _ => 0) 1 256) [7]).1.length =
        ([7] : List Nat).length ∧
      (encryptBytes (buildMealyMachine (fun _ => 0) 1 256) [7]).2.getD 0
          trajDefault =
        ⟨0, encState (buildMealyMachine (fun _ => 0) 1 256) [7] 0,
          ([7] : List Nat).getD 0 0,
          stepState (buildMealyMachine (fun _ => 0) 1 256)
            (encState (buildMealyMachine (fun _ => 0) 1 256) [7] 0)
            (([7] : List Nat).getD 0 0) 0,
          dget (buildMealyMachine (fun _ => 0) 1 256).lambdaTable
            (encState (buildMealyMachine (fun _ => 0) 1 256) [7] 0)
            (([7] : List Nat).getD 0 0)⟩ := by
  have h := C4_encrypt_algorithm (buildMealyMachine (fun _ => 0) 1 256) [7]
    (fun st x => build_lambda_bound (fun _ => 0) 1 256 (by norm_num) st x)
  exact ⟨h.1, h.2.2.2 0 (by norm_num)⟩

/-- C10: for a machine built by `buildMealyMachine` with n > 0 states and
the 256-symbol alphabet, every `delta` entry is below n (it is computed
mod n), the warm-up and the per-byte state recurrences of both encrypt and
decrypt keep `currentState` in [0, n) at every step, every recovered byte
(a `lambdaInv` entry) is below 256, all three tables have n rows of length
256, and every state recorded in a trajectory (pre- and post-transition)
is in [0, n) — so every table access of `encryptBytes`/`decryptBytes` is
within bounds. -/
theorem C10_in_bounds (e : Nat → Nat) (nStates : Nat) (hn : 0 < nStates) :
    (∀ s x, dget (buildMealyMachine e nStates 256).delta s x < nStates) ∧
    (∀ k st, st < nStates →
      warmFrom (buildMealyMachine e nStates 256) st k < nStates) ∧
    (∀ bs t, encState (buildMealyMachine e nStates 256) bs t < nStates) ∧
    (∀ bs t, decState (buildMealyMachine e nStates 256) bs t < nStates) ∧
    (∀ s x, dget (buildMealyMachine e nStates 256).lambdaInv s x < 256) ∧
    (buildMealyMachine e nStates 256).delta.length = nStates ∧
    (∀ s, s < nStates →
      ((buildMealyMachine e nStates 256).delta.getD s []).length = 256) ∧
    (buildMealyMachine e nStates 256).lambdaTable.length = nStates ∧
    (∀ s, s < nStates →
      ((buildMealyMachine e nStates 256).lambdaTable.getD s []).length =
        256) ∧
    (buildMealyMachine e nStates 256).lambdaInv.length = nStates ∧
    (∀ s, s < nStates →
      ((buildMealyMachine e nStates 256).lambdaInv.getD s []).length =
        256) ∧
    (∀ bs, ∀ tr ∈ (encryptBytes (buildMealyMachine e nStates 256) bs).2,
      tr.s < nStates ∧ tr.sPrime < nStates) ∧
    (∀ bs, ∀ tr ∈ (decryptBytes (buildMealyMachine e nStates 256) bs).2,
      tr.s < nStates ∧ tr.sPrime < nStates) := by
  have hd := build_delta_bound e nStates 256 hn
  have hwarm : ∀ k st, st < nStates →
      warmFrom (buildMealyMachine e nStates 256) st k < nStates :=
    fun k st hst => warmFrom_bound _ hn hd k st hst
  refine ⟨hd, hwarm, ?_, ?_, build_inv_bound e nStates 256 (by norm_num),
    ?_, ?_, ?_, ?_, ?_, ?_, ?_, ?_⟩
  · intro bs t
    induction t with
    | zero => exact hwarm 500 0 hn
    | succ k _ => exact stepState_bound _ hn _ _ _
  · intro bs t
    induction t with
    | zero => exact hwarm 500 0 hn
    | succ k _ => exact stepState_bound _ hn _ _ _
  · show (fillDelta e nStates 256 0 nStates).1.length = nStates
    rw [fillDelta_length]
  · intro s hs
    show ((fillDelta e nStates 256 0 nStates).1.getD s []).length = 256
    rw [fillDelta_getD e nStates 256 nStates 0 s hs, fillRow_length]
  · show (fillPerms e 256
      (fillDelta e nStates 256 0 nStates).2 nStates).1.length = nStates
    rw [fillPerms_length]
  · intro s hs
    rw [build_lambda_row e nStates 256 s hs, permRow_length]
  · show ((fillPerms e 256
      (fillDelta e nStates 256 0 nStates).2 nStates).1.map
        (fun p => buildInv p 256)).length = nStates
    rw [List.length_map, fillPerms_length]
  · intro s hs
    rw [build_inv_row e nStates 256 s hs, buildInv_length]
  · intro bs tr htr
    exact encLoop_traj_mem _ hn hd bs _ 0 (hwarm 500 0 hn) tr htr
  · intro bs tr htr
    exact decLoop_traj_mem _ hn hd bs _ 0 (hwarm 500 0 hn) tr htr

/-- C10 witness: selected clauses applied to the machine built from the
all-zero stream with the 1024 states used by the application. -/
theorem C10_witness :
    dget (buildMealyMachine (fun _ => 0) 1024 256).delta 0 0 < 1024 ∧
      (∀ bs t,
        encState (buildMealyMachine (fun _ => 0) 1024 256) bs t < 1024) ∧
      (buildMealyMachine (fun _ => 0) 1024 256).delta.length = 1024 :=
  ⟨(C10_in_bounds (fun _ => 0) 1024 (by norm_num)).1 0 0,
    (C10_in_bounds (fun _ => 0) 1024 (by norm_num)).2.2.1,
    (C10_in_bounds (fun _ => 0) 1024 (by norm_num)).2.2.2.2.2.1⟩

theorem toFixed2_app (q : ℚ) (v : Int) (h : Int.floor (q * 100 + 1/2) = v) :
    toFixed2 q = fmt2 v := by
  rw [toFixed2, h]

theorem toFixed4R_app (x : ℝ) (v : Int)
    (h : Int.floor (x * 10000 + 1/2) = v) : toFixed4R x = fmt4 v := by
  rw [toFixed4R, h]

theorem countDiff_eq_zip :
    ∀ (a b : List Nat),
      countDiff a b = (a.zip b).countP (fun p => decide (p.1 ≠ p.2)) := by
  intro a
  induction a with
  | nil => intro b; cases b <;> rfl
  | cons x as ih =>
    intro b
    cases b with
    | nil => rfl
    | cons y bs =>
      rw [List.zip_cons_cons, List.countP_cons, countDiff, ih]
      by_cases h : x = y
      · simp [h]
      · simp [h]
        omega

/-- C8: `calculateNPCR` returns the `"0.00"` sentinel (without failing) on
mismatched-length inputs; on equal-length non-empty inputs it returns the
fraction of differing byte positions times 100, to two decimal places; in
particular it yields `"0.00"` on identical arrays and `"100.00"` on fully
differing ones. -/
theorem C8_npcr (a b : List Nat) :
    (a.length ≠ b.length → calculateNPCR a b = "0.00") ∧
    (a.length = b.length → a.length ≠ 0 →
      calculateNPCR a b =
        toFixed2 ((((a.zip b).countP (fun p => decide (p.1 ≠ p.2)) : ℚ) /
          (a.length : ℚ)) * 100)) ∧
    calculateNPCR [1,2,3] [1,2,3] = "0.00" ∧
    calculateNPCR [1,2,3] [9,9,9] = "100.00" := by
  refine ⟨?_, ?_, ?_, ?_⟩
  · intro h
    rw [calculateNPCR, if_pos h]
  · intro h h0
    rw [calculateNPCR, if_neg (by omega), if_neg h0, countDiff_eq_zip]
  · show toFixed2 (((countDiff [1,2,3] [1,2,3] : ℚ) /
      (([1,2,3] : List Nat).length : ℚ)) * 100) = "0.00"
    rw [toFixed2_app _ 0 (by norm_num [countDiff])]
    decide
  · show toFixed2 (((countDiff [1,2,3] [9,9,9] : ℚ) /
      (([1,2,3] : List Nat).length : ℚ)) * 100) = "100.00"
    rw [toFixed2_app _ 10000 (by norm_num [countDiff])]
    decide

/-- C8 witness: the mismatched-length clause applied at [1, 2] versus [1]. -/
theorem C8_witness : calculateNPCR [1,2] [1] = "0.00" :=
  (C8_npcr [1,2] [1]).1 (by decide)

theorem dedup_toFinset_sum (data : List Nat) (f : Nat → ℝ) :
    Finset.sum data.toFinset f = (data.dedup.map f).sum := by
  have h1 : data.toFinset = data.dedup.toFinset := by
    refine Finset.ext (fun v => ?_)
    rw [List.mem_toFinset, List.mem_toFinset, List.mem_dedup]
  rw [h1, List.sum_toFinset f (List.nodup_dedup data)]

/-- C9: `calculateEntropy` returns `"0.0000"` for empty input; for non-empty
input it returns the Shannon entropy `-Σ p·log2 p` over the frequency
histogram of the observed values (each distinct observed value is one
nonzero-probability bin), formatted to four decimal places; in particular
it yields `"0.0000"` on [0,0,0,0] and `"1.0000"` on [0,1]. -/
theorem C9_entropy (data : List Nat) :
    calculateEntropy [] = "0.0000" ∧
    (data.length ≠ 0 →
      calculateEntropy data =
        toFixed4R (-(Finset.sum data.toFinset (fun v =>
          ((data.count v : ℝ) / (data.length : ℝ)) *
            Real.logb 2 ((data.count v : ℝ) / (data.length : ℝ)))))) ∧
    calculateEntropy [0,0,0,0] = "0.0000" ∧
    calculateEntropy [0,1] = "1.0000" := by
  refine ⟨rfl, ?_, ?_, ?_⟩
  · intro h
    rw [calculateEntropy, if_neg h, entropyVal, dedup_toFinset_sum]
  · show toFixed4R (entropyVal [0,0,0,0]) = "0.0000"
    have hv : entropyVal [0,0,0,0] = 0 := by
      have hd : ([0,0,0,0] : List Nat).dedup = [0] := by decide
      rw [entropyVal, hd]
      norm_num
    rw [hv, toFixed4R_app 0 0 (by norm_num)]
    decide
  · show toFixed4R (entropyVal [0,1]) = "1.0000"
    have hv : entropyVal [0,1] = 1 := by
      have hd : ([0,1] : List Nat).dedup = [0,1] := by decide
      rw [entropyVal, hd]
      have hc0 : ([0,1] : List Nat).count 0 = 1 := by decide
      have hc1 : ([0,1] : List Nat).count 1 = 1 := by decide
      have hl : ([0,1] : List Nat).length = 2 := by decide
      simp only [List.map_cons, List.map_nil, List.sum_cons, List.sum_nil,
        hc0, hc1, hl]
      have hlog : Real.logb 2 ((1:ℝ)/2) = -1 := by
        rw [one_div, Real.logb_inv, Real.logb_self_eq_one (by norm_num)]
      norm_num [hlog]
    rw [hv, toFixed4R_app 1 10000 (by norm_num)]
    decide

/-- C9 witness: the histogram clause applied at the input [0, 1]. -/
theorem C9_witness :
    calculateEntropy [0,1] =
      toFixed4R (-(Finset.sum ([0,1] : List Nat).toFinset (fun v =>
        ((([0,1] : List Nat).count v : ℝ) /
            ((([0,1] : List Nat).length : Nat) : ℝ)) *
          Real.logb 2 ((([0,1] : List Nat).count v : ℝ) /
            ((([0,1] : List Nat).length : Nat) : ℝ))))) :=
  (C9_entropy [0,1]).2.1 (by decide)

/-- C6 witness: the amended range applied at the one-character key [116]. -/
theorem C6_witness : 1/10 ≤ initSeed [116] ∧ initSeed [116] < 9/10 :=
  C6_seed_range [116]

/-- C7 witness: the refinement applied at the two-character key
[116, 101]. -/
theorem C7_witness : jsHash [116,101] = specHash [116,101] :=
  C7_hash_refinement [116,101]
